import Mathlib

/-!
A shallow embedding of the Fast-Notepad note-storage HTTP service
(`src/main.go`) and proofs about its save/load/ping/bootstrap contract.

Byte payloads are modelled as `List Char` (the Go code treats request
bodies and file contents as byte strings; we model them at rune level,
which is faithful for all valid UTF-8 data).  Go's `encoding/json`
behaviour (`json.Marshal`, `json.MarshalIndent`, `json.Unmarshal` into
`[]Note`, and `time.Time`'s RFC 3339 (un)marshalling) is embedded
executably below, following the semantics of the Go standard library
as used by the program.
-/

namespace FastNotepad

/-- Byte payloads / file contents, modelled at rune granularity. -/
abbrev Bytes := List Char

/-! ## Character utilities -/

/-- JSON whitespace, as accepted by Go's `encoding/json` scanner. -/
def isWsChar (c : Char) : Bool :=
  c = ' ' || c = '\t' || c = '\n' || c = '\r'

def isDigitCh (c : Char) : Bool :=
  48 ≤ c.toNat && c.toNat ≤ 57

/-- The decimal digit character for `d < 10`. -/
def digitChar (d : Nat) : Char := Char.ofNat (48 + d)

/-- Lower-case hexadecimal digit character for `d < 16` (Go's encoder
uses the alphabet `0123456789abcdef`). -/
def hexChar (d : Nat) : Char :=
  if d < 10 then Char.ofNat (48 + d) else Char.ofNat (87 + d)

def isHexCh (c : Char) : Bool :=
  isDigitCh c || (97 ≤ c.toNat && c.toNat ≤ 102) || (65 ≤ c.toNat && c.toNat ≤ 70)

def hexVal (c : Char) : Nat :=
  if 97 ≤ c.toNat then c.toNat - 87
  else if 65 ≤ c.toNat then c.toNat - 55
  else c.toNat - 48

/-- ASCII lower-casing, modelling Go's `foldName` key comparison
(ASCII case-insensitive). -/
def lowerCh (c : Char) : Char :=
  if 65 ≤ c.toNat && c.toNat ≤ 90 then Char.ofNat (c.toNat + 32) else c

/-- ASCII case-insensitive equality of JSON object keys and struct
field tags, as used by Go's `encoding/json` field matching. -/
def foldEq (a b : Bytes) : Bool :=
  decide (a.map lowerCh = b.map lowerCh)

/-! ## Go's JSON string escaping (`encoding/json`, HTML escaping on) -/

/-- How Go's JSON encoder (with default HTML escaping, as used by
`json.Marshal`, `json.MarshalIndent` and `json.NewEncoder`) renders a
single rune inside a string literal. -/
def escapeChar (c : Char) : List Char :=
  if c = '"' then ['\\', '"']
  else if c = '\\' then ['\\', '\\']
  else if c = '\n' then ['\\', 'n']
  else if c = '\r' then ['\\', 'r']
  else if c = '\t' then ['\\', 't']
  else if c.toNat < 32 then ['\\', 'u', '0', '0', hexChar (c.toNat / 16), hexChar (c.toNat % 16)]
  else if c = '<' then ['\\', 'u', '0', '0', '3', 'c']
  else if c = '>' then ['\\', 'u', '0', '0', '3', 'e']
  else if c = '&' then ['\\', 'u', '0', '0', '2', '6']
  else if c.toNat = 8232 then ['\\', 'u', '2', '0', '2', '8']
  else if c.toNat = 8233 then ['\\', 'u', '2', '0', '2', '9']
  else [c]

def escapeString (s : List Char) : List Char :=
  (s.map escapeChar).flatten

/-- A complete JSON string literal for content `s`. -/
def renderString (s : List Char) : List Char :=
  '"' :: escapeString s ++ ['"']

/-! ## JSON values

`str` carries both the unescaped content and the raw source text of
the literal (without the surrounding quotes): Go's decoder hands the
raw bytes of a value to `time.Time.UnmarshalJSON`, so the raw text is
semantically relevant.  `num` carries the raw numeric token. -/

inductive Json where
  | null : Json
  | bool (b : Bool) : Json
  | num (tok : List Char) : Json
  | str (content raw : List Char) : Json
  | arr (elems : List Json) : Json
  | obj (members : List (List Char × Json)) : Json
deriving Repr

/-- A string value as constructed by Go's encoder: the raw text is the
escaped form of the content. -/
def mkStr (s : List Char) : Json := Json.str s (escapeString s)

/-- The characters of the literal token `null`. -/
def litNull : List Char := ['n', 'u', 'l', 'l']

/-- The characters of the literal token `true`. -/
def litTrue : List Char := ['t', 'r', 'u', 'e']

/-- The characters of the literal token `false`. -/
def litFalse : List Char := ['f', 'a', 'l', 's', 'e']

mutual

/-- Fuel bound for the parser: an upper bound on the nesting of
recursive parser calls needed to re-parse the rendered value. -/
def Json.size : Json → Nat
  | .null | .bool _ | .num _ => 1
  | .str s _ => s.length + 2
  | .arr [] => 1
  | .arr (v :: vs) => 1 + max (Json.size v) (Json.sizeElems vs)
  | .obj [] => 1
  | .obj ((k, v) :: ms) =>
      1 + max (k.length + 1) (max (Json.size v) (Json.sizeMembers ms))

def Json.sizeElems : List Json → Nat
  | [] => 1
  | v :: vs => 1 + max (Json.size v) (Json.sizeElems vs)

def Json.sizeMembers : List (List Char × Json) → Nat
  | [] => 1
  | (k, v) :: ms => 1 + max (k.length + 1) (max (Json.size v) (Json.sizeMembers ms))

end

mutual

/-- Well-formedness of encoder-produced values: no numbers or booleans
(the program's encoder never emits them), and every string's raw text
is the escaped form of its content. -/
def Json.wfb : Json → Bool
  | .null => true
  | .bool _ => false
  | .num _ => false
  | .str s raw => decide (raw = escapeString s)
  | .arr l => Json.wfbElems l
  | .obj l => Json.wfbMembers l

def Json.wfbElems : List Json → Bool
  | [] => true
  | v :: vs => Json.wfb v && Json.wfbElems vs

def Json.wfbMembers : List (List Char × Json) → Bool
  | [] => true
  | (_, v) :: ms => Json.wfb v && Json.wfbMembers ms

end

mutual

/-- Compact rendering, exactly as Go's `json.Marshal` renders the
corresponding value. -/
def Json.render : Json → List Char
  | .null => litNull
  | .bool true => litTrue
  | .bool false => litFalse
  | .num tok => tok
  | .str s _ => renderString s
  | .arr [] => ['[', ']']
  | .arr (v :: vs) => '[' :: (Json.render v ++ Json.renderTail vs) ++ [']']
  | .obj [] => ['{', '}']
  | .obj ((k, v) :: ms) =>
      '{' :: (renderString k ++ ':' :: Json.render v ++ Json.renderMTail ms) ++ ['}']

def Json.renderTail : List Json → List Char
  | [] => []
  | v :: vs => ',' :: Json.render v ++ Json.renderTail vs

def Json.renderMTail : List (List Char × Json) → List Char
  | [] => []
  | (k, v) :: ms => ',' :: renderString k ++ ':' :: Json.render v ++ Json.renderMTail ms

end

/-- Indentation emitted by `json.MarshalIndent(v, "", "  ")` at nesting
depth `d`. -/
def indentAt (d : Nat) : List Char := List.replicate (2 * d) ' '

mutual

/-- Indented rendering at depth `d`, exactly as produced by
`json.MarshalIndent(v, "", "  ")` (i.e. `json.Indent` applied to the
compact form). -/
def Json.renderInd : Json → Nat → List Char
  | .null, _ => litNull
  | .bool true, _ => litTrue
  | .bool false, _ => litFalse
  | .num tok, _ => tok
  | .str s _, _ => renderString s
  | .arr [], _ => ['[', ']']
  | .arr (v :: vs), d =>
      '[' :: '\n' :: indentAt (d + 1) ++ Json.renderInd v (d + 1) ++
        Json.renderIndTail vs (d + 1) ++ '\n' :: indentAt d ++ [']']
  | .obj [], _ => ['{', '}']
  | .obj ((k, v) :: ms), d =>
      '{' :: '\n' :: indentAt (d + 1) ++ renderString k ++ ':' :: ' ' ::
        Json.renderInd v (d + 1) ++ Json.renderIndMTail ms (d + 1) ++
        '\n' :: indentAt d ++ ['}']

def Json.renderIndTail : List Json → Nat → List Char
  | v :: vs, d => ',' :: '\n' :: indentAt d ++ Json.renderInd v d ++ Json.renderIndTail vs d
  | [], _ => []

def Json.renderIndMTail : List (List Char × Json) → Nat → List Char
  | (k, v) :: ms, d =>
      ',' :: '\n' :: indentAt d ++ renderString k ++ ':' :: ' ' ::
        Json.renderInd v d ++ Json.renderIndMTail ms d
  | [], _ => []

end

/-! ## The JSON parser (Go's `encoding/json` scanner + unquoting)

`json.Unmarshal` first validates the whole input as JSON and errors on
any syntax violation; parse failure is modelled as `none`. -/

def skipWs : List Char → List Char
  | [] => []
  | c :: cs => if isWsChar c then skipWs cs else c :: cs

/-- Decodes the body of a string literal (after the opening quote),
returning the unescaped content, the raw source text, and the rest of
the input after the closing quote.  Mirrors Go's scanner checks
(control characters and malformed escapes are errors) and `unquote`
(invalid surrogate escapes are replaced by U+FFFD). -/
def parseStringBody : Nat → List Char → Option ((List Char × List Char) × List Char)
  | 0, _ => none
  | _ + 1, [] => none
  | fuel + 1, c :: cs =>
    if c = '"' then some (([], []), cs)
    else if c = '\\' then
      match cs with
      | [] => none
      | e :: cs2 =>
        if e = '"' then
          (parseStringBody fuel cs2).map fun p => (('"' :: p.1.1, '\\' :: '"' :: p.1.2), p.2)
        else if e = '\\' then
          (parseStringBody fuel cs2).map fun p => (('\\' :: p.1.1, '\\' :: '\\' :: p.1.2), p.2)
        else if e = '/' then
          (parseStringBody fuel cs2).map fun p => (('/' :: p.1.1, '\\' :: '/' :: p.1.2), p.2)
        else if e = 'b' then
          (parseStringBody fuel cs2).map fun p =>
            ((Char.ofNat 8 :: p.1.1, '\\' :: 'b' :: p.1.2), p.2)
        else if e = 'f' then
          (parseStringBody fuel cs2).map fun p =>
            ((Char.ofNat 12 :: p.1.1, '\\' :: 'f' :: p.1.2), p.2)
        else if e = 'n' then
          (parseStringBody fuel cs2).map fun p => (('\n' :: p.1.1, '\\' :: 'n' :: p.1.2), p.2)
        else if e = 'r' then
          (parseStringBody fuel cs2).map fun p => (('\r' :: p.1.1, '\\' :: 'r' :: p.1.2), p.2)
        else if e = 't' then
          (parseStringBody fuel cs2).map fun p => (('\t' :: p.1.1, '\\' :: 't' :: p.1.2), p.2)
        else if e = 'u' then
          match cs2 with
          | h1 :: h2 :: h3 :: h4 :: cs3 =>
            if isHexCh h1 && isHexCh h2 && isHexCh h3 && isHexCh h4 then
              let n := ((hexVal h1 * 16 + hexVal h2) * 16 + hexVal h3) * 16 + hexVal h4
              if 55296 ≤ n && n ≤ 57343 then
                -- surrogate: Go tries to combine with a following \uXXXX,
                -- writing U+FFFD when the pair is invalid
                match cs3 with
                | d1 :: d2 :: g1 :: g2 :: g3 :: g4 :: cs4 =>
                  if d1 = '\\' && d2 = 'u' && isHexCh g1 && isHexCh g2 && isHexCh g3 &&
                      isHexCh g4 then
                    let m := ((hexVal g1 * 16 + hexVal g2) * 16 + hexVal g3) * 16 + hexVal g4
                    if n < 56320 && 56320 ≤ m && m ≤ 57343 then
                      (parseStringBody fuel cs4).map fun p =>
                        ((Char.ofNat (65536 + (n - 55296) * 1024 + (m - 56320)) :: p.1.1,
                          '\\' :: 'u' :: h1 :: h2 :: h3 :: h4 ::
                            '\\' :: 'u' :: g1 :: g2 :: g3 :: g4 :: p.1.2), p.2)
                    else
                      (parseStringBody fuel cs3).map fun p =>
                        ((Char.ofNat 65533 :: p.1.1,
                          '\\' :: 'u' :: h1 :: h2 :: h3 :: h4 :: p.1.2), p.2)
                  else
                    (parseStringBody fuel cs3).map fun p =>
                      ((Char.ofNat 65533 :: p.1.1,
                        '\\' :: 'u' :: h1 :: h2 :: h3 :: h4 :: p.1.2), p.2)
                | _ =>
                  (parseStringBody fuel cs3).map fun p =>
                    ((Char.ofNat 65533 :: p.1.1,
                      '\\' :: 'u' :: h1 :: h2 :: h3 :: h4 :: p.1.2), p.2)
              else
                (parseStringBody fuel cs3).map fun p =>
                  ((Char.ofNat n :: p.1.1,
                    '\\' :: 'u' :: h1 :: h2 :: h3 :: h4 :: p.1.2), p.2)
            else none
          | _ => none
        else none
    else if c.toNat < 32 then none
    else (parseStringBody fuel cs).map fun p => ((c :: p.1.1, c :: p.1.2), p.2)

/-- Exponent part of a JSON number token (and termination). -/
def parseNumExp (tok : List Char) (t : List Char) : Option (List Char × List Char) :=
  match t with
  | e :: t2 =>
    if e = 'e' || e = 'E' then
      let sgn : List Char × List Char :=
        match t2 with
        | '+' :: u => (['+'], u)
        | '-' :: u => (['-'], u)
        | _ => ([], t2)
      let es := sgn.2.takeWhile isDigitCh
      if es = [] then none
      else some (tok ++ e :: sgn.1 ++ es, sgn.2.dropWhile isDigitCh)
    else some (tok, t)
  | [] => some (tok, [])

/-- Fraction and exponent parts of a JSON number token. -/
def parseNumFrac (tok : List Char) (t : List Char) : Option (List Char × List Char) :=
  match t with
  | '.' :: t2 =>
    let fs := t2.takeWhile isDigitCh
    if fs = [] then none
    else parseNumExp (tok ++ '.' :: fs) (t2.dropWhile isDigitCh)
  | _ => parseNumExp tok t

/-- A JSON number token (Go's scanner grammar), returned raw. -/
def parseNumber (s : List Char) : Option (List Char × List Char) :=
  let p : List Char × List Char :=
    match s with
    | '-' :: t => (['-'], t)
    | _ => ([], s)
  match p.2 with
  | '0' :: t => parseNumFrac (p.1 ++ ['0']) t
  | c :: t =>
    if isDigitCh c then
      parseNumFrac (p.1 ++ c :: t.takeWhile isDigitCh) (t.dropWhile isDigitCh)
    else none
  | [] => none

mutual

/-- Parses one JSON value (after optional leading whitespace),
returning it and the unconsumed input. -/
def parseValue : Nat → List Char → Option (Json × List Char)
  | 0, _ => none
  | fuel + 1, s =>
    match skipWs s with
    | 'n' :: 'u' :: 'l' :: 'l' :: rest => some (Json.null, rest)
    | 't' :: 'r' :: 'u' :: 'e' :: rest => some (Json.bool true, rest)
    | 'f' :: 'a' :: 'l' :: 's' :: 'e' :: rest => some (Json.bool false, rest)
    | '"' :: rest =>
      (parseStringBody fuel rest).map fun p => (Json.str p.1.1 p.1.2, p.2)
    | '[' :: rest =>
      (match skipWs rest with
       | [] => none
       | c2 :: r2 =>
         if c2 = ']' then some (Json.arr [], r2)
         else
           (parseValue fuel (c2 :: r2)).bind fun p =>
             (parseArrRest fuel p.2).map fun q => (Json.arr (p.1 :: q.1), q.2))
    | '{' :: rest =>
      (match skipWs rest with
       | '}' :: r2 => some (Json.obj [], r2)
       | '"' :: r2 =>
         (parseStringBody fuel r2).bind fun kp =>
           (match skipWs kp.2 with
            | ':' :: r3 =>
              (parseValue fuel r3).bind fun vp =>
                (parseObjRest fuel vp.2).map fun q =>
                  (Json.obj ((kp.1.1, vp.1) :: q.1), q.2)
            | _ => none)
       | _ => none)
    | s' => (parseNumber s').map fun p => (Json.num p.1, p.2)

/-- Parses the remainder of an array after one element: either `]` or
`, value` repeated. -/
def parseArrRest : Nat → List Char → Option (List Json × List Char)
  | 0, _ => none
  | fuel + 1, s =>
    match skipWs s with
    | ']' :: rest => some ([], rest)
    | ',' :: rest =>
      (parseValue fuel rest).bind fun p =>
        (parseArrRest fuel p.2).map fun q => (p.1 :: q.1, q.2)
    | _ => none

/-- Parses the remainder of an object after one member. -/
def parseObjRest : Nat → List Char → Option (List (List Char × Json) × List Char)
  | 0, _ => none
  | fuel + 1, s =>
    match skipWs s with
    | '}' :: rest => some ([], rest)
    | ',' :: rest =>
      (match skipWs rest with
       | '"' :: r2 =>
         (parseStringBody fuel r2).bind fun kp =>
           (match skipWs kp.2 with
            | ':' :: r3 =>
              (parseValue fuel r3).bind fun vp =>
                (parseObjRest fuel vp.2).map fun q => ((kp.1.1, vp.1) :: q.1, q.2)
            | _ => none)
       | _ => none)
    | _ => none

end

/-- Parses a complete JSON document: one value with only whitespace
around it, as `json.Unmarshal` requires.  The fuel `s.length + 1`
suffices for any input that parses at all. -/
def parseJsonTop (s : Bytes) : Option Json :=
  match parseValue (s.length + 1) s with
  | some (v, rest) => if skipWs rest = [] then some v else none
  | none => none

/-! ## Go `time.Time`, as seen through its JSON (un)marshalling

`time.Time.MarshalJSON` renders RFC 3339 with nanoseconds (trailing
zeros of the fraction trimmed, `Z` for a zero zone offset);
`time.Time.UnmarshalJSON` parses strict RFC 3339.  We model a time
value by its broken-down components plus the zone offset in minutes
(an offset of zero renders as `Z`). -/

structure GoTime where
  year : Nat
  month : Nat
  day : Nat
  hour : Nat
  minute : Nat
  second : Nat
  nanos : Nat
  offset : Int
deriving DecidableEq, Repr

/-- The zero `time.Time` (January 1, year 1, 00:00:00 UTC). -/
def GoTime.zero : GoTime := ⟨1, 1, 1, 0, 0, 0, 0, 0⟩

def isLeapYear (y : Nat) : Bool :=
  y % 4 = 0 && (y % 100 ≠ 0 || y % 400 = 0)

def daysInMonth (y m : Nat) : Nat :=
  if m = 2 then (if isLeapYear y then 29 else 28)
  else if m = 4 || m = 6 || m = 9 || m = 11 then 30
  else 31

/-- Component ranges guaranteed for every Go `time.Time` that can be
marshalled to RFC 3339 (and for every parsed one). -/
def GoTime.validb (t : GoTime) : Bool :=
  t.year ≤ 9999 && 1 ≤ t.month && t.month ≤ 12 && 1 ≤ t.day &&
    t.day ≤ daysInMonth t.year t.month && t.hour ≤ 23 && t.minute ≤ 59 &&
    t.second ≤ 59 && t.nanos ≤ 999999999 && t.offset.natAbs ≤ 1439

def pad2 (n : Nat) : List Char := [digitChar (n / 10 % 10), digitChar (n % 10)]

def pad4 (n : Nat) : List Char :=
  [digitChar (n / 1000 % 10), digitChar (n / 100 % 10), digitChar (n / 10 % 10),
    digitChar (n % 10)]

def pad9 (n : Nat) : List Char :=
  [digitChar (n / 100000000 % 10), digitChar (n / 10000000 % 10),
    digitChar (n / 1000000 % 10), digitChar (n / 100000 % 10),
    digitChar (n / 10000 % 10), digitChar (n / 1000 % 10),
    digitChar (n / 100 % 10), digitChar (n / 10 % 10), digitChar (n % 10)]

def trimTrailingZeros (l : List Char) : List Char :=
  (l.reverse.dropWhile (fun c => c = '0')).reverse

/-- The fractional-second part rendered by `RFC3339Nano`: omitted when
zero, trailing zeros trimmed otherwise. -/
def fracRender (n : Nat) : List Char :=
  if n = 0 then [] else '.' :: trimTrailingZeros (pad9 n)

/-- The zone part: `Z` for offset zero, `±hh:mm` otherwise. -/
def offsetRender (off : Int) : List Char :=
  if off = 0 then ['Z']
  else (if 0 < off then '+' else '-') ::
    pad2 (off.natAbs / 60) ++ ':' :: pad2 (off.natAbs % 60)

/-- RFC 3339 with nanoseconds, as `time.Time.MarshalJSON` renders the
time (fraction omitted when zero, trailing zeros trimmed, `Z` for
offset zero). -/
def GoTime.format (t : GoTime) : List Char :=
  pad4 t.year ++ '-' :: pad2 t.month ++ '-' :: pad2 t.day ++
    'T' :: pad2 t.hour ++ ':' :: pad2 t.minute ++ ':' :: pad2 t.second ++
    (fracRender t.nanos ++ offsetRender t.offset)

def read2 : List Char → Option (Nat × List Char)
  | a :: b :: rest =>
    if isDigitCh a && isDigitCh b then
      some ((a.toNat - 48) * 10 + (b.toNat - 48), rest)
    else none
  | _ => none

def read4 : List Char → Option (Nat × List Char)
  | a :: b :: c :: d :: rest =>
    if isDigitCh a && isDigitCh b && isDigitCh c && isDigitCh d then
      some (((a.toNat - 48) * 10 + (b.toNat - 48)) * 100 +
        ((c.toNat - 48) * 10 + (d.toNat - 48)), rest)
    else none
  | _ => none

def expectCh (c : Char) : List Char → Option (List Char)
  | d :: rest => if d = c then some rest else none
  | [] => none

def valDigits (ds : List Char) : Nat :=
  ds.foldl (fun a c => a * 10 + (c.toNat - 48)) 0

/-- The optional fractional-second part: a period followed by digits
(only the first nine significant, as in Go's `parseNanoseconds`). -/
def parseFracPart (s : List Char) : Nat × List Char :=
  match s with
  | c :: d :: _ =>
    if c = '.' && isDigitCh d then
      let ds := (s.drop 1).takeWhile isDigitCh
      (valDigits (ds.take 9) * 10 ^ (9 - min 9 ds.length), (s.drop 1).dropWhile isDigitCh)
    else (0, s)
  | _ => (0, s)

/-- The zone part, which must end the input: `Z` or `±hh:mm` with
`hh ≤ 23`, `mm ≤ 59` (Go's strict RFC 3339 parser). -/
def parseOffset (s : List Char) : Option Int :=
  match s with
  | ['Z'] => some 0
  | [c, h1, h2, ':', m1, m2] =>
    if (c = '+' || c = '-') && isDigitCh h1 && isDigitCh h2 && isDigitCh m1 &&
        isDigitCh m2 then
      let hh := (h1.toNat - 48) * 10 + (h2.toNat - 48)
      let mm := (m1.toNat - 48) * 10 + (m2.toNat - 48)
      if hh ≤ 23 && mm ≤ 59 then
        some (if c = '+' then (hh * 60 + mm : Int) else -((hh * 60 + mm : Nat) : Int))
      else none
    else none
  | _ => none

/-- Go's strict RFC 3339 parse (`parseRFC3339`, used by
`time.Time.UnmarshalJSON`), with its range validation. -/
def parseRFC3339 (s : List Char) : Option GoTime :=
  (read4 s).bind fun p1 =>
  (expectCh '-' p1.2).bind fun r1 =>
  (read2 r1).bind fun p2 =>
  (expectCh '-' p2.2).bind fun r2 =>
  (read2 r2).bind fun p3 =>
  (expectCh 'T' p3.2).bind fun r3 =>
  (read2 r3).bind fun p4 =>
  (expectCh ':' p4.2).bind fun r4 =>
  (read2 r4).bind fun p5 =>
  (expectCh ':' p5.2).bind fun r5 =>
  (read2 r5).bind fun p6 =>
  (parseOffset (parseFracPart p6.2).2).bind fun off =>
  if 1 ≤ p2.1 && p2.1 ≤ 12 && 1 ≤ p3.1 && p3.1 ≤ daysInMonth p1.1 p2.1 &&
      p4.1 ≤ 23 && p5.1 ≤ 59 && p6.1 ≤ 59 then
    some ⟨p1.1, p2.1, p3.1, p4.1, p5.1, p6.1, (parseFracPart p6.2).1, off⟩
  else none

/-! ## The program's data model (`src/main.go` lines 14–28)

A Go slice is modelled as `Option (List α)`: `none` is the nil slice
(which marshals to `null`), `some l` a non-nil slice. -/

structure Content where
  id : Bytes
  title : Bytes
  text : Bytes
  createdAt : GoTime
  updatedAt : GoTime
deriving DecidableEq, Repr

structure Note where
  id : Bytes
  title : Bytes
  content : Option (List Content)
  createdAt : GoTime
  updatedAt : GoTime
deriving DecidableEq, Repr

/-- The value of a Go `[]Note` variable. -/
abbrev Notes := Option (List Note)

def Content.zero : Content := ⟨[], [], [], GoTime.zero, GoTime.zero⟩

def Note.zero : Note := ⟨[], [], none, GoTime.zero, GoTime.zero⟩

def Content.validb (c : Content) : Bool :=
  c.createdAt.validb && c.updatedAt.validb

def Note.validb (n : Note) : Bool :=
  n.createdAt.validb && n.updatedAt.validb &&
    (match n.content with
     | none => true
     | some cs => cs.all Content.validb)

def Notes.validb : Notes → Bool
  | none => true
  | some l => l.all Note.validb

/-! ## Marshalling (`json.Marshal` / `json.MarshalIndent` of `[]Note`) -/

def jsonOfTime (t : GoTime) : Json := mkStr t.format

def jsonOfContent (c : Content) : Json :=
  Json.obj [("id".data, mkStr c.id), ("title".data, mkStr c.title),
    ("text".data, mkStr c.text), ("createdAt".data, jsonOfTime c.createdAt),
    ("updatedAt".data, jsonOfTime c.updatedAt)]

def jsonOfContents : Option (List Content) → Json
  | none => Json.null
  | some l => Json.arr (l.map jsonOfContent)

def jsonOfNote (n : Note) : Json :=
  Json.obj [("id".data, mkStr n.id), ("title".data, mkStr n.title),
    ("content".data, jsonOfContents n.content),
    ("createdAt".data, jsonOfTime n.createdAt),
    ("updatedAt".data, jsonOfTime n.updatedAt)]

def jsonOfNotes : Notes → Json
  | none => Json.null
  | some l => Json.arr (l.map jsonOfNote)

/-- `json.Marshal` of a `[]Note` value. -/
def marshalNotes (ns : Notes) : Bytes := (jsonOfNotes ns).render

/-- `json.MarshalIndent(notes, "", "  ")` of a `[]Note` value. -/
def marshalIndentNotes (ns : Notes) : Bytes := (jsonOfNotes ns).renderInd 0

/-! ## Unmarshalling (`json.Unmarshal(body, &notes)`)

`none` models a non-nil error.  Decoding continues past type errors in
Go (recording the first one), but since the program only tests
`err == nil`, aborting at the first error is an equivalent model. -/

/-- Decoding a JSON value into a `string` field holding `cur`:
strings store their content, `null` is a no-op, anything else is a
type error. -/
def decodeStringInto (v : Json) (cur : Bytes) : Option Bytes :=
  match v with
  | .str s _ => some s
  | .null => some cur
  | _ => none

/-- Decoding a JSON value into a `time.Time` field holding `cur`:
`null` is a no-op; otherwise `time.Time.UnmarshalJSON` receives the
raw text of the value, which must be a string literal whose raw
characters parse as strict RFC 3339. -/
def decodeTimeInto (v : Json) (cur : GoTime) : Option GoTime :=
  match v with
  | .str _ raw => parseRFC3339 raw
  | .null => some cur
  | _ => none

def Content.applyMember (c : Content) (k : Bytes) (v : Json) : Option Content :=
  if foldEq k "id".data then (decodeStringInto v c.id).map fun s => { c with id := s }
  else if foldEq k "title".data then
    (decodeStringInto v c.title).map fun s => { c with title := s }
  else if foldEq k "text".data then
    (decodeStringInto v c.text).map fun s => { c with text := s }
  else if foldEq k "createdAt".data then
    (decodeTimeInto v c.createdAt).map fun t => { c with createdAt := t }
  else if foldEq k "updatedAt".data then
    (decodeTimeInto v c.updatedAt).map fun t => { c with updatedAt := t }
  else some c

/-- Decoding an array element into a `Content` struct: `null` is a
no-op on the zero value, an object is decoded member by member
(unknown keys ignored, later duplicates overwrite), anything else is
a type error. -/
def decodeContentElem (v : Json) : Option Content :=
  match v with
  | .null => some Content.zero
  | .obj ms => ms.foldlM (fun c m => Content.applyMember c m.1 m.2) Content.zero
  | _ => none

/-- Decoding a JSON value into a `[]Content` field: `null` sets the
slice to nil. -/
def decodeContentsInto (v : Json) : Option (Option (List Content)) :=
  match v with
  | .null => some none
  | .arr vs => (vs.mapM decodeContentElem).map some
  | _ => none

def Note.applyMember (n : Note) (k : Bytes) (v : Json) : Option Note :=
  if foldEq k "id".data then (decodeStringInto v n.id).map fun s => { n with id := s }
  else if foldEq k "title".data then
    (decodeStringInto v n.title).map fun s => { n with title := s }
  else if foldEq k "content".data then
    (decodeContentsInto v).map fun c => { n with content := c }
  else if foldEq k "createdAt".data then
    (decodeTimeInto v n.createdAt).map fun t => { n with createdAt := t }
  else if foldEq k "updatedAt".data then
    (decodeTimeInto v n.updatedAt).map fun t => { n with updatedAt := t }
  else some n

def decodeNoteElem (v : Json) : Option Note :=
  match v with
  | .null => some Note.zero
  | .obj ms => ms.foldlM (fun n m => Note.applyMember n m.1 m.2) Note.zero
  | _ => none

/-- Decoding a JSON document into `[]Note`: `null` yields the nil
slice, an array is decoded elementwise, anything else is a type
error. -/
def decodeNotesJson (v : Json) : Option Notes :=
  match v with
  | .null => some none
  | .arr vs => (vs.mapM decodeNoteElem).map some
  | _ => none

/-- `json.Unmarshal(body, &notes)`: full syntax validation, then typed
decoding.  `none` models `err != nil`. -/
def unmarshalNotes (s : Bytes) : Option Notes :=
  (parseJsonTop s).bind decodeNotesJson

/-! ## The HTTP handlers (`src/main.go` lines 47–144)

The two store files live in the working directory; `none` means the
file does not exist.  Filesystem failures are injected through
explicit outcome parameters (the error text Go would report); a failed
`ioutil.WriteFile` leaves the target unchanged in this model, and the
claims below never depend on the contents of a file whose write
failed. -/

structure FS where
  compact : Option Bytes
  readable : Option Bytes
deriving DecidableEq, Repr

structure HttpResponse where
  status : Nat
  contentType : Bytes
  body : Bytes
deriving DecidableEq, Repr

/-- `http.Error(w, msg, code)`: text/plain, message plus newline. -/
def httpError (msg : Bytes) (code : Nat) : HttpResponse :=
  ⟨code, "text/plain; charset=utf-8".data, msg ++ ['\n']⟩

/-- `json.NewEncoder(w).Encode(map[string]string{...})`: Go marshals a
map with its keys sorted ("message" < "status") and the encoder
appends a newline. -/
def encodeStatusMap (message status : Bytes) : Bytes :=
  (Json.obj [("message".data, mkStr message), ("status".data, mkStr status)]).render ++
    ['\n']

def successBody : Bytes :=
  encodeStatusMap "Data saved successfully".data "success".data

def pingBody : Bytes :=
  encodeStatusMap "Server is running".data "ok".data

/-- Injected I/O outcomes for one execution of `saveHandler`:
`bodyRead = none` models `ioutil.ReadAll(r.Body)` failing; a `some e`
in a write field models `ioutil.WriteFile` failing with error text
`e`. -/
structure SaveEnv where
  bodyRead : Option Bytes
  writeDataErr : Option Bytes
  writeReadableErr : Option Bytes

/-- `saveHandler` (lines 82–122). -/
def saveHandler (method : Bytes) (env : SaveEnv) (fs : FS) : HttpResponse × FS :=
  if method ≠ "POST".data then
    (httpError "Only POST method is allowed".data 405, fs)
  else
    match env.bodyRead with
    | none => (httpError "Error reading request body".data 400, fs)
    | some body =>
      match env.writeDataErr with
      | some e => (httpError ("Error saving to data.txt: ".data ++ e) 500, fs)
      | none =>
        let fs1 : FS := { fs with compact := some body }
        let fs2 : FS :=
          match unmarshalNotes body with
          | some notes =>
            match env.writeReadableErr with
            | none => { fs1 with readable := some (marshalIndentNotes notes) }
            | some _ => fs1
          | none => fs1
        (⟨200, "application/json".data, successBody⟩, fs2)

/-- `loadHandler` (lines 124–144).  `readErr = some e` models
`ioutil.ReadFile` failing with error text `e` although the file
exists. -/
def loadHandler (method : Bytes) (readErr : Option Bytes) (fs : FS) : HttpResponse × FS :=
  if method ≠ "GET".data then
    (httpError "Only GET method is allowed".data 405, fs)
  else
    match fs.compact with
    | none => (httpError "No saved data found".data 404, fs)
    | some d =>
      match readErr with
      | some e => (httpError ("Error reading saved data: ".data ++ e) 500, fs)
      | none => (⟨200, "application/json".data, d⟩, fs)

/-- `pingHandler` (lines 76–80): fixed payload, no method check, no
store access. -/
def pingHandler (_method : Bytes) (fs : FS) : HttpResponse × FS :=
  (⟨200, "application/json".data, pingBody⟩, fs)

/-- `createDefaultFilesIfNotExists` (lines 47–73).  Write failures are
logged and skipped; the readable file is attempted even if the compact
write failed. -/
def createDefaultFilesIfNotExists (writeDataOk writeReadableOk : Bool) (fs : FS) : FS :=
  match fs.compact with
  | some _ => fs
  | none =>
    let fs1 : FS :=
      if writeDataOk then { fs with compact := some (marshalNotes (some [])) } else fs
    if writeReadableOk then { fs1 with readable := some (marshalIndentNotes (some [])) }
    else fs1

/-! ## The write-serialization gate (`saveMutex`, lines 30–31 and 89–90)

A small interleaving model of two concurrent saves.  Each thread runs
the locked section of `saveHandler` as a sequence of atomic machine
steps: acquire the mutex (blocking while the other thread holds it),
truncate the compact store, append its payload one byte at a time
(file overwrite is not atomic at the filesystem level), and release.
A schedule chooses which thread attempts a step at each instant; a
blocked or finished thread's turn is a no-op. -/

structure Mx2State where
  lock : Option Bool
  pcA : Nat
  pcB : Nat
  file : Bytes
deriving DecidableEq, Repr

/-- Program counter of the finished thread with payload `P`:
acquire, truncate, `P.length` byte writes, release. -/
def progEnd (P : Bytes) : Nat := P.length + 3

def Mx2State.pc (s : Mx2State) (i : Bool) : Nat :=
  if i then s.pcB else s.pcA

def Mx2State.setPc (s : Mx2State) (i : Bool) (v : Nat) : Mx2State :=
  if i then { s with pcB := v } else { s with pcA := v }

/-- One attempted step of thread `i` (`false` = first saver, `true` =
second), whose save payload is `P`. -/
def threadStep (P : Bytes) (i : Bool) (s : Mx2State) : Mx2State :=
  let k := s.pc i
  if k = 0 then
    -- saveMutex.Lock(): blocks while the other thread holds the lock
    if s.lock = none then { s.setPc i 1 with lock := some i } else s
  else if k = 1 then { s.setPc i 2 with file := [] }
  else if k < P.length + 2 then
    { s.setPc i (k + 1) with file := s.file ++ [P.getD (k - 2) ' '] }
  else if k = P.length + 2 then { s.setPc i (k + 1) with lock := none }
  else s

/-- Run a schedule of thread turns from a state. -/
def runSched (P1 P2 : Bytes) (sched : List Bool) (s : Mx2State) : Mx2State :=
  sched.foldl (fun s i => threadStep (if i then P2 else P1) i s) s

def initMx (f0 : Bytes) : Mx2State := ⟨none, 0, 0, f0⟩

/-- Thread `i` is between its lock acquisition and its lock release:
it "is executing a save". -/
def inCritical (P : Bytes) (k : Nat) : Prop := 1 ≤ k ∧ k ≤ P.length + 2

/-- Inductive invariant of the two-saver machine: the lock holder is
inside its critical section and the file is the prefix of its payload
written so far, while the other thread is either still waiting or
completely done; with the lock free, both threads are either waiting
or done, and once one has finished the file holds one of the two
payloads in full. -/
def mxInv (P1 P2 : Bytes) (s : Mx2State) : Prop :=
  match s.lock with
  | some false =>
    1 ≤ s.pcA ∧ s.pcA ≤ P1.length + 2 ∧ (s.pcB = 0 ∨ s.pcB = P2.length + 3) ∧
      (2 ≤ s.pcA → s.file = P1.take (s.pcA - 2))
  | some true =>
    1 ≤ s.pcB ∧ s.pcB ≤ P2.length + 2 ∧ (s.pcA = 0 ∨ s.pcA = P1.length + 3) ∧
      (2 ≤ s.pcB → s.file = P2.take (s.pcB - 2))
  | none =>
    (s.pcA = 0 ∨ s.pcA = P1.length + 3) ∧ (s.pcB = 0 ∨ s.pcB = P2.length + 3) ∧
      (s.pcA = P1.length + 3 ∨ s.pcB = P2.length + 3 → s.file = P1 ∨ s.file = P2)

/-! ## Round-trip lemmas: the parser inverts the encoder -/

theorem skipWs_cons_not {c : Char} (cs : List Char) (h : isWsChar c = false) :
    skipWs (c :: cs) = c :: cs := by
  simp [skipWs, h]

theorem escapeString_cons (c : Char) (cs : List Char) :
    escapeString (c :: cs) = escapeChar c ++ escapeString cs := by
  simp [escapeString]

theorem hexChar_isHex : ∀ d, d < 16 → isHexCh (hexChar d) = true := by decide

theorem hexVal_hexChar : ∀ d, d < 16 → hexVal (hexChar d) = d := by decide

theorem parseStringBody_escape (fuel : Nat) :
    ∀ s rest : List Char, s.length + 1 ≤ fuel →
      parseStringBody fuel (escapeString s ++ '"' :: rest) =
        some ((s, escapeString s), rest) := by
  induction fuel with
  | zero => intro s rest h; omega
  | succ f ih =>
    intro s rest h
    match s with
    | [] => simp [escapeString, parseStringBody]
    | c :: cs =>
      have hlen : cs.length + 1 ≤ f := by
        simp only [List.length_cons] at h; omega
      have hrec := ih cs rest hlen
      rw [escapeString_cons]
      by_cases h1 : c = '"'
      · subst h1; simp [escapeChar, parseStringBody, hrec, escapeString_cons]
      · by_cases h2 : c = '\\'
        · subst h2; simp [escapeChar, parseStringBody, hrec, escapeString_cons]
        · by_cases h3 : c = '\n'
          · subst h3; simp [escapeChar, parseStringBody, hrec, escapeString_cons]
          · by_cases h4 : c = '\r'
            · subst h4; simp [escapeChar, parseStringBody, hrec, escapeString_cons]
            · by_cases h5 : c = '\t'
              · subst h5; simp [escapeChar, parseStringBody, hrec, escapeString_cons]
              · by_cases h6 : c.toNat < 32
                · -- control character: rendered as \u00XX
                  have hd1 : c.toNat / 16 < 16 := by omega
                  have hd2 : c.toNat % 16 < 16 := by omega
                  have e1 := hexChar_isHex _ hd1
                  have e2 := hexChar_isHex _ hd2
                  have v1 := hexVal_hexChar _ hd1
                  have v2 := hexVal_hexChar _ hd2
                  have hn : ((hexVal '0' * 16 + hexVal '0') * 16 +
                      hexVal (hexChar (c.toNat / 16))) * 16 +
                      hexVal (hexChar (c.toNat % 16)) = c.toNat := by
                    rw [v1, v2]; simp [hexVal]; omega
                  have hns : ¬ 55296 ≤ c.toNat := by omega
                  simp +decide [escapeChar, h1, h2, h3, h4, h5, h6,
                    parseStringBody, e1, e2, hn, hns, hrec, escapeString_cons]
                · by_cases h7 : c = '<'
                  · subst h7
                    simp +decide [escapeChar, parseStringBody, hrec, escapeString_cons]
                  · by_cases h8 : c = '>'
                    · subst h8
                      simp +decide [escapeChar, parseStringBody, hrec, escapeString_cons]
                    · by_cases h9 : c = '&'
                      · subst h9
                        simp +decide [escapeChar, parseStringBody, hrec,
                          escapeString_cons]
                      · by_cases h10 : c.toNat = 8232
                        · have hc : Char.ofNat c.toNat = c := Char.ofNat_toNat c
                          rw [h10] at hc
                          have hv : ((hexVal '2' * 16 + hexVal '0') * 16 +
                              hexVal '2') * 16 + hexVal '8' = 8232 := by decide
                          simp +decide [escapeChar, h1, h2, h3, h4, h5, h6, h7, h8,
                            h9, h10, parseStringBody, hrec, hv, hc, escapeString_cons]
                        · by_cases h11 : c.toNat = 8233
                          · have hc : Char.ofNat c.toNat = c := Char.ofNat_toNat c
                            rw [h11] at hc
                            have hv : ((hexVal '2' * 16 + hexVal '0') * 16 +
                                hexVal '2') * 16 + hexVal '9' = 8233 := by decide
                            simp +decide [escapeChar, h1, h2, h3, h4, h5, h6, h7,
                              h8, h9, h10, h11, parseStringBody, hrec, hv, hc,
                              escapeString_cons]
                          · -- plain character
                            simp [escapeChar, h1, h2, h3, h4, h5, h6, h7, h8, h9,
                              h10, h11, parseStringBody, hrec, escapeString_cons]

set_option maxHeartbeats 1000000 in
theorem escapeChar_length_pos (c : Char) : 1 ≤ (escapeChar c).length := by
  unfold escapeChar
  split_ifs <;> simp only [List.length_cons, List.length_nil] <;> omega

theorem escapeString_length_ge (s : List Char) : s.length ≤ (escapeString s).length := by
  induction s with
  | nil => simp [escapeString]
  | cons c cs ih =>
    rw [escapeString_cons]
    simp only [List.length_append, List.length_cons]
    have := escapeChar_length_pos c
    omega

theorem Json.size_pos (v : Json) : 1 ≤ Json.size v := by
  cases v with
  | arr l => cases l <;> simp [Json.size]
  | obj l =>
    match l with
    | [] => simp [Json.size]
    | (k, v) :: ms => simp [Json.size]
  | _ => simp [Json.size]

theorem Json.sizeElems_pos (l : List Json) : 1 ≤ Json.sizeElems l := by
  cases l <;> simp [Json.sizeElems]

theorem Json.sizeMembers_pos (l : List (List Char × Json)) : 1 ≤ Json.sizeMembers l := by
  match l with
  | [] => simp [Json.sizeMembers]
  | (k, v) :: ms => simp [Json.sizeMembers]

/-- Every well-formed value renders to a non-empty string whose first
character is not whitespace and not a closing bracket. -/
theorem render_head (v : Json) (hw : Json.wfb v = true) :
    ∃ c cs, Json.render v = c :: cs ∧ isWsChar c = false ∧ c ≠ ']' := by
  cases v with
  | null => exact ⟨'n', _, rfl, by decide, by decide⟩
  | bool b => simp [Json.wfb] at hw
  | num tok => simp [Json.wfb] at hw
  | str s raw => exact ⟨'"', _, rfl, by decide, by decide⟩
  | arr l =>
    cases l with
    | nil => exact ⟨'[', _, rfl, by decide, by decide⟩
    | cons x xs => exact ⟨'[', _, rfl, by decide, by decide⟩
  | obj l =>
    match l with
    | [] => exact ⟨'{', _, rfl, by decide, by decide⟩
    | (k, v) :: ms => exact ⟨'{', _, rfl, by decide, by decide⟩

/-- The parser fuel bound is dominated by the length of the rendered
output (so `length + 1` fuel always suffices to re-parse). -/
theorem size_le_render_master : ∀ n : Nat,
    (∀ v, Json.size v ≤ n → Json.wfb v = true → Json.size v ≤ v.render.length) ∧
    (∀ l, Json.sizeElems l ≤ n → Json.wfbElems l = true →
      Json.sizeElems l ≤ (Json.renderTail l).length + 1) ∧
    (∀ l, Json.sizeMembers l ≤ n → Json.wfbMembers l = true →
      Json.sizeMembers l ≤ (Json.renderMTail l).length + 1) := by
  intro n
  induction n with
  | zero =>
    refine ⟨fun v hv _ => ?_, fun l hl _ => ?_, fun l hl _ => ?_⟩
    · have := Json.size_pos v; omega
    · have := Json.sizeElems_pos l; omega
    · have := Json.sizeMembers_pos l; omega
  | succ n ih =>
    obtain ⟨ihv, ihe, ihm⟩ := ih
    refine ⟨fun v hv hw => ?_, fun l hl hw => ?_, fun l hl hw => ?_⟩
    · cases v with
      | null => simp [Json.size, Json.render, litNull]
      | bool b => simp [Json.wfb] at hw
      | num tok => simp [Json.wfb] at hw
      | str s raw =>
        have := escapeString_length_ge s
        simp [Json.size, Json.render, renderString]
        omega
      | arr l =>
        cases l with
        | nil => simp [Json.size, Json.render]
        | cons x xs =>
          simp only [Json.wfb, Json.wfbElems, Bool.and_eq_true] at hw
          simp only [Json.size] at hv ⊢
          have h1 := ihv x (by omega) hw.1
          have h2 := ihe xs (by omega) hw.2
          simp only [Json.render, List.length_cons, List.length_append]
          omega
      | obj l =>
        match l with
        | [] => simp [Json.size, Json.render]
        | (k, v0) :: ms =>
          simp only [Json.wfb, Json.wfbMembers, Bool.and_eq_true] at hw
          simp only [Json.size] at hv ⊢
          have h1 := ihv v0 (by omega) hw.1
          have h2 := ihm ms (by omega) hw.2
          have h3 := escapeString_length_ge k
          simp only [Json.render, renderString, List.length_cons, List.length_append]
          omega
    · cases l with
      | nil => simp [Json.sizeElems]
      | cons x xs =>
        simp only [Json.wfbElems, Bool.and_eq_true] at hw
        simp only [Json.sizeElems] at hl ⊢
        have h1 := ihv x (by omega) hw.1
        have h2 := ihe xs (by omega) hw.2
        simp only [Json.renderTail, List.length_cons, List.length_append]
        omega
    · match l with
      | [] => simp [Json.sizeMembers, Json.renderMTail]
      | (k, v0) :: ms =>
        simp only [Json.wfbMembers, Bool.and_eq_true] at hw
        simp only [Json.sizeMembers] at hl ⊢
        have h1 := ihv v0 (by omega) hw.1
        have h2 := ihm ms (by omega) hw.2
        have h3 := escapeString_length_ge k
        simp only [Json.renderMTail, renderString, List.length_cons, List.length_append]
        omega

/-- The parser inverts the renderer on well-formed values, given
enough fuel. -/
theorem parse_render_master : ∀ fuel : Nat,
    (∀ v rest, Json.wfb v = true → Json.size v ≤ fuel →
      parseValue fuel (v.render ++ rest) = some (v, rest)) ∧
    (∀ l rest, Json.wfbElems l = true → Json.sizeElems l ≤ fuel →
      parseArrRest fuel (Json.renderTail l ++ ']' :: rest) = some (l, rest)) ∧
    (∀ l rest, Json.wfbMembers l = true → Json.sizeMembers l ≤ fuel →
      parseObjRest fuel (Json.renderMTail l ++ '}' :: rest) = some (l, rest)) := by
  intro fuel
  induction fuel with
  | zero =>
    refine ⟨fun v rest _ hv => ?_, fun l rest _ hl => ?_, fun l rest _ hl => ?_⟩
    · have := Json.size_pos v; omega
    · have := Json.sizeElems_pos l; omega
    · have := Json.sizeMembers_pos l; omega
  | succ f ih =>
    obtain ⟨ihv, ihe, ihm⟩ := ih
    refine ⟨fun v rest hw hsz => ?_, fun l rest hw hsz => ?_, fun l rest hw hsz => ?_⟩
    · cases v with
      | null => simp +decide [Json.render, litNull, parseValue, skipWs]
      | bool b => simp [Json.wfb] at hw
      | num tok => simp [Json.wfb] at hw
      | str s raw =>
        simp only [Json.wfb, decide_eq_true_eq] at hw
        subst hw
        have hb := parseStringBody_escape f s rest
          (by simp only [Json.size] at hsz; omega)
        simp only [Json.render, renderString, List.cons_append, List.append_assoc,
          List.nil_append]
        simp +decide [parseValue, skipWs, hb]
      | arr l =>
        cases l with
        | nil => simp +decide [Json.render, parseValue, skipWs]
        | cons x xs =>
          simp only [Json.wfb, Json.wfbElems, Bool.and_eq_true] at hw
          simp only [Json.size] at hsz
          obtain ⟨c, cs, hcx, hcw, hcne⟩ := render_head x hw.1
          have hv : parseValue f (c :: (cs ++ (Json.renderTail xs ++ ']' :: rest))) =
              some (x, Json.renderTail xs ++ ']' :: rest) := by
            rw [← List.cons_append, ← hcx]
            exact ihv x (Json.renderTail xs ++ ']' :: rest) hw.1 (by omega)
          have ha := ihe xs rest hw.2 (by omega)
          simp only [Json.render, List.cons_append, List.append_assoc, List.nil_append,
            hcx]
          simp only [parseValue]
          rw [skipWs_cons_not _ (by decide)]
          simp only []
          rw [skipWs_cons_not _ hcw]
          simp [hcne, hv, ha]
      | obj l =>
        match l with
        | [] => simp +decide [Json.render, parseValue, skipWs]
        | (k, v0) :: ms =>
          simp only [Json.wfb, Json.wfbMembers, Bool.and_eq_true] at hw
          simp only [Json.size] at hsz
          have hk := parseStringBody_escape f k
            (':' :: (Json.render v0 ++ (Json.renderMTail ms ++ '}' :: rest)))
            (by omega)
          have hv := ihv v0 (Json.renderMTail ms ++ '}' :: rest) hw.1 (by omega)
          have hm := ihm ms rest hw.2 (by omega)
          simp only [Json.render, renderString, List.cons_append, List.append_assoc,
            List.nil_append]
          simp only [parseValue]
          rw [skipWs_cons_not _ (by decide)]
          simp only []
          rw [skipWs_cons_not _ (by decide)]
          simp only [hk, Option.some_bind]
          rw [skipWs_cons_not _ (by decide)]
          simp [hv, hm]
    · cases l with
      | nil => simp +decide [Json.renderTail, parseArrRest, skipWs]
      | cons x xs =>
        simp only [Json.wfbElems, Bool.and_eq_true] at hw
        simp only [Json.sizeElems] at hsz
        have hv := ihv x (Json.renderTail xs ++ ']' :: rest) hw.1 (by omega)
        have ha := ihe xs rest hw.2 (by omega)
        simp only [Json.renderTail, List.cons_append, List.append_assoc,
          List.nil_append]
        simp only [parseArrRest]
        rw [skipWs_cons_not _ (by decide)]
        simp [hv, ha]
    · match l with
      | [] => simp +decide [Json.renderMTail, parseObjRest, skipWs]
      | (k, v0) :: ms =>
        simp only [Json.wfbMembers, Bool.and_eq_true] at hw
        simp only [Json.sizeMembers] at hsz
        have hk := parseStringBody_escape f k
          (':' :: (Json.render v0 ++ (Json.renderMTail ms ++ '}' :: rest)))
          (by omega)
        have hv := ihv v0 (Json.renderMTail ms ++ '}' :: rest) hw.1 (by omega)
        have hm := ihm ms rest hw.2 (by omega)
        simp only [Json.renderMTail, renderString, List.cons_append, List.append_assoc,
          List.nil_append]
        simp only [parseObjRest]
        rw [skipWs_cons_not _ (by decide)]
        simp only []
        rw [skipWs_cons_not _ (by decide)]
        simp only [hk, Option.some_bind]
        rw [skipWs_cons_not _ (by decide)]
        simp [hv, hm]

/-- Re-parsing the compact rendering of a well-formed value yields the
value back. -/
theorem parseJsonTop_render (v : Json) (h : Json.wfb v = true) :
    parseJsonTop v.render = some v := by
  have hs := (size_le_render_master (Json.size v)).1 v le_rfl h
  have hp := (parse_render_master (v.render.length + 1)).1 v [] h (by omega)
  rw [List.append_nil] at hp
  simp [parseJsonTop, hp, skipWs]

/-! ## RFC 3339 round trip -/

theorem digitChar_isDigit : ∀ d, d < 10 → isDigitCh (digitChar d) = true := by decide

theorem digitChar_toNat : ∀ d, d < 10 → (digitChar d).toNat = 48 + d := by decide

theorem read2_pad2 (n : Nat) (r : List Char) (h : n ≤ 99) :
    read2 (pad2 n ++ r) = some (n, r) := by
  have h1 : n / 10 % 10 < 10 := Nat.mod_lt _ (by norm_num)
  have h2 : n % 10 < 10 := Nat.mod_lt _ (by norm_num)
  simp [read2, pad2, digitChar_isDigit _ h1, digitChar_isDigit _ h2,
    digitChar_toNat _ h1, digitChar_toNat _ h2]
  omega

theorem read4_pad4 (n : Nat) (r : List Char) (h : n ≤ 9999) :
    read4 (pad4 n ++ r) = some (n, r) := by
  have h1 : n / 1000 % 10 < 10 := Nat.mod_lt _ (by norm_num)
  have h2 : n / 100 % 10 < 10 := Nat.mod_lt _ (by norm_num)
  have h3 : n / 10 % 10 < 10 := Nat.mod_lt _ (by norm_num)
  have h4 : n % 10 < 10 := Nat.mod_lt _ (by norm_num)
  simp [read4, pad4, digitChar_isDigit _ h1, digitChar_isDigit _ h2,
    digitChar_isDigit _ h3, digitChar_isDigit _ h4, digitChar_toNat _ h1,
    digitChar_toNat _ h2, digitChar_toNat _ h3, digitChar_toNat _ h4]
  omega

theorem expectCh_cons (c : Char) (r : List Char) : expectCh c (c :: r) = some r := by
  simp [expectCh]

theorem foldl_val_zeros : ∀ (z : Nat) (v : Nat),
    List.foldl (fun a c => a * 10 + (c.toNat - 48)) v (List.replicate z '0') =
      v * 10 ^ z := by
  intro z
  induction z with
  | zero => intro v; simp
  | succ z ih =>
    intro v
    rw [List.replicate_succ, List.foldl_cons, ih]
    have : '0'.toNat - 48 = 0 := by decide
    rw [this, pow_succ]
    ring

theorem valDigits_append_zeros (ds : List Char) (z : Nat) :
    valDigits (ds ++ List.replicate z '0') = valDigits ds * 10 ^ z := by
  unfold valDigits
  rw [List.foldl_append, foldl_val_zeros]

theorem valDigits_pad9 (n : Nat) (h : n ≤ 999999999) : valDigits (pad9 n) = n := by
  have h1 : n / 100000000 % 10 < 10 := Nat.mod_lt _ (by norm_num)
  have h2 : n / 10000000 % 10 < 10 := Nat.mod_lt _ (by norm_num)
  have h3 : n / 1000000 % 10 < 10 := Nat.mod_lt _ (by norm_num)
  have h4 : n / 100000 % 10 < 10 := Nat.mod_lt _ (by norm_num)
  have h5 : n / 10000 % 10 < 10 := Nat.mod_lt _ (by norm_num)
  have h6 : n / 1000 % 10 < 10 := Nat.mod_lt _ (by norm_num)
  have h7 : n / 100 % 10 < 10 := Nat.mod_lt _ (by norm_num)
  have h8 : n / 10 % 10 < 10 := Nat.mod_lt _ (by norm_num)
  have h9 : n % 10 < 10 := Nat.mod_lt _ (by norm_num)
  simp [valDigits, pad9, digitChar_toNat _ h1, digitChar_toNat _ h2,
    digitChar_toNat _ h3, digitChar_toNat _ h4, digitChar_toNat _ h5,
    digitChar_toNat _ h6, digitChar_toNat _ h7, digitChar_toNat _ h8,
    digitChar_toNat _ h9]
  omega

theorem pad9_all_digits (n : Nat) : ∀ c ∈ pad9 n, isDigitCh c = true := by
  intro c hc
  simp [pad9] at hc
  rcases hc with h | h | h | h | h | h | h | h | h <;>
    (subst h; exact digitChar_isDigit _ (Nat.mod_lt _ (by norm_num)))

theorem trimTrailingZeros_spec (l : List Char) :
    ∃ z, l = trimTrailingZeros l ++ List.replicate z '0' := by
  refine ⟨(l.reverse.takeWhile (fun c => c = '0')).length, ?_⟩
  have hrep : (l.reverse.takeWhile (fun c => c = '0')).reverse =
      List.replicate (l.reverse.takeWhile (fun c => c = '0')).length '0' := by
    rw [List.eq_replicate_iff]
    refine ⟨by simp, fun b hb => ?_⟩
    rw [List.mem_reverse] at hb
    have hp := List.mem_takeWhile_imp hb
    simpa using hp
  calc l = l.reverse.reverse := (List.reverse_reverse l).symm
    _ = (l.reverse.takeWhile (fun c => c = '0') ++
          l.reverse.dropWhile (fun c => c = '0')).reverse := by
        rw [List.takeWhile_append_dropWhile]
    _ = trimTrailingZeros l ++ List.replicate
          (l.reverse.takeWhile (fun c => c = '0')).length '0' := by
        rw [List.reverse_append, hrep, trimTrailingZeros]

theorem takeWhile_all_cons_false {p : Char → Bool} :
    ∀ (l1 : List Char) (c2 : Char) (l2 : List Char), (∀ c ∈ l1, p c = true) →
      p c2 = false →
      (l1 ++ c2 :: l2).takeWhile p = l1 ∧ (l1 ++ c2 :: l2).dropWhile p = c2 :: l2 := by
  intro l1
  induction l1 with
  | nil =>
    intro c2 l2 _ h2
    simp [List.takeWhile, List.dropWhile, h2]
  | cons a l ih =>
    intro c2 l2 h1 h2
    have ha : p a = true := h1 a (by simp)
    have := ih c2 l2 (fun c hc => h1 c (by simp [hc])) h2
    simp [List.takeWhile, List.dropWhile, ha, this.1, this.2]

/-- The fractional part printed for a nonzero nanosecond count parses
back to it. -/
theorem parseFracPart_frac (nanos : Nat) (c2 : Char) (l2 : List Char)
    (h0 : 1 ≤ nanos) (h9 : nanos ≤ 999999999) (hc2 : isDigitCh c2 = false) :
    parseFracPart ('.' :: trimTrailingZeros (pad9 nanos) ++ c2 :: l2) =
      (nanos, c2 :: l2) := by
  obtain ⟨z, hz⟩ := trimTrailingZeros_spec (pad9 nanos)
  have hlen9 : (pad9 nanos).length = 9 := by simp [pad9]
  have htl : (trimTrailingZeros (pad9 nanos)).length + z = 9 := by
    have := congrArg List.length hz
    simp [List.length_append, List.length_replicate] at this
    omega
  have hval : valDigits (trimTrailingZeros (pad9 nanos)) * 10 ^ z = nanos := by
    have := valDigits_append_zeros (trimTrailingZeros (pad9 nanos)) z
    rw [← hz] at this
    rw [← this, valDigits_pad9 _ h9]
  have hdig : ∀ c ∈ trimTrailingZeros (pad9 nanos), isDigitCh c = true := by
    intro c hc
    exact pad9_all_digits nanos c (by rw [hz]; exact List.mem_append_left _ hc)
  have hne : trimTrailingZeros (pad9 nanos) ≠ [] := by
    intro hemp
    rw [hemp] at hval
    simp [valDigits] at hval
    omega
  obtain ⟨d, ds, hds⟩ : ∃ d ds, trimTrailingZeros (pad9 nanos) = d :: ds := by
    match hmm : trimTrailingZeros (pad9 nanos), hne with
    | d :: ds, _ => exact ⟨d, ds, rfl⟩
  have hd : isDigitCh d = true := hdig d (by rw [hds]; simp)
  have hall := takeWhile_all_cons_false (p := isDigitCh)
    (trimTrailingZeros (pad9 nanos)) c2 l2 hdig hc2
  rw [hds] at hall ⊢
  simp only [List.cons_append] at hall
  have htake : (d :: ds).length ≤ 9 := by rw [← hds]; omega
  simp only [List.cons_append]
  rw [parseFracPart]
  simp only [List.drop_succ_cons, List.drop_zero]
  rw [if_pos (by simp [hd])]
  rw [hall.1, hall.2]
  have hmin : min 9 (d :: ds).length = (d :: ds).length := by omega
  have htk : (d :: ds).take 9 = d :: ds := List.take_of_length_le htake
  rw [htk, hmin]
  have hz9 : 9 - (d :: ds).length = z := by rw [← hds] at htake ⊢; omega
  rw [hz9]
  rw [hds] at hval
  rw [hval]

theorem parseFracPart_head_ne (c d : Char) (r : List Char) (h : ¬ c = '.') :
    parseFracPart (c :: d :: r) = (0, c :: d :: r) := by
  simp [parseFracPart, h]

/-- The printed zone offset parses back. -/
theorem parseOffset_format (off : Int) (h : off.natAbs ≤ 1439) :
    parseOffset (offsetRender off) = some off := by
  unfold offsetRender
  by_cases h0 : off = 0
  · subst h0; simp [parseOffset]
  · have hh1 : off.natAbs / 60 / 10 % 10 < 10 := Nat.mod_lt _ (by norm_num)
    have hh2 : off.natAbs / 60 % 10 < 10 := Nat.mod_lt _ (by norm_num)
    have hm1 : off.natAbs % 60 / 10 % 10 < 10 := Nat.mod_lt _ (by norm_num)
    have hm2 : off.natAbs % 60 % 10 < 10 := Nat.mod_lt _ (by norm_num)
    have hm3 : off.natAbs % 10 < 10 := Nat.mod_lt _ (by norm_num)
    have hhle : off.natAbs / 60 ≤ 23 := by omega
    have hmle : off.natAbs % 60 ≤ 59 := by omega
    by_cases hp : 0 < off
    · simp only [h0, if_false, hp, if_true, pad2, List.cons_append, List.nil_append]
      rw [parseOffset]
      simp +decide [digitChar_isDigit _ hh1, digitChar_isDigit _ hh2,
        digitChar_isDigit _ hm1, digitChar_isDigit _ hm2, digitChar_isDigit _ hm3,
        digitChar_toNat _ hh1, digitChar_toNat _ hh2, digitChar_toNat _ hm1,
        digitChar_toNat _ hm2, digitChar_toNat _ hm3]
      simp only [Int.abs_eq_natAbs]
      omega
    · simp only [h0, if_false, hp, List.cons_append, List.nil_append, pad2]
      rw [parseOffset]
      simp +decide [digitChar_isDigit _ hh1, digitChar_isDigit _ hh2,
        digitChar_isDigit _ hm1, digitChar_isDigit _ hm2, digitChar_isDigit _ hm3,
        digitChar_toNat _ hh1, digitChar_toNat _ hh2, digitChar_toNat _ hm1,
        digitChar_toNat _ hm2, digitChar_toNat _ hm3]
      simp only [Int.abs_eq_natAbs]
      omega

theorem daysInMonth_le_31 (y m : Nat) : daysInMonth y m ≤ 31 := by
  unfold daysInMonth
  split_ifs <;> omega

/-- The zone rendering of a nonzero valid offset starts with a sign
character and parses back to the offset. -/
theorem offsetRender_shape (off : Int) (h0 : ¬ off = 0) (h : off.natAbs ≤ 1439) :
    ∃ c2 d2 l2, offsetRender off = c2 :: d2 :: l2 ∧ isDigitCh c2 = false ∧
      ¬ c2 = '.' ∧ parseOffset (c2 :: d2 :: l2) = some off := by
  have hpo := parseOffset_format off h
  have hsh : offsetRender off = (if 0 < off then '+' else '-') ::
      digitChar (off.natAbs / 60 / 10 % 10) :: digitChar (off.natAbs / 60 % 10) ::
      ':' :: pad2 (off.natAbs % 60) := by
    simp [offsetRender, h0, pad2]
  exact ⟨_, _, _, hsh, by split <;> decide, by split <;> decide,
    by rw [← hsh]; exact hpo⟩

set_option maxHeartbeats 1000000 in
/-- `time.Time.UnmarshalJSON` inverts `time.Time.MarshalJSON` on every
valid time value. -/
theorem parseRFC3339_format (t : GoTime) (h : t.validb = true) :
    parseRFC3339 t.format = some t := by
  obtain ⟨y, mo, dy, hr, mi, sec, n, off⟩ := t
  simp only [GoTime.validb, Bool.and_eq_true, decide_eq_true_eq] at h
  obtain ⟨⟨⟨⟨⟨⟨⟨⟨⟨hy, hmo1⟩, hmo2⟩, hd1⟩, hd2⟩, hh⟩, hmi⟩, hs⟩, hn⟩, hob⟩ := h
  have hdm := daysInMonth_le_31 y mo
  simp only [GoTime.format, parseRFC3339]
  simp only [List.append_assoc, List.cons_append]
  rw [read4_pad4 y _ (by omega)]
  simp only [Option.some_bind]
  rw [expectCh_cons]
  simp only [Option.some_bind]
  rw [read2_pad2 mo _ (by omega)]
  simp only [Option.some_bind]
  rw [expectCh_cons]
  simp only [Option.some_bind]
  rw [read2_pad2 dy _ (by omega)]
  simp only [Option.some_bind]
  rw [expectCh_cons]
  simp only [Option.some_bind]
  rw [read2_pad2 hr _ (by omega)]
  simp only [Option.some_bind]
  rw [expectCh_cons]
  simp only [Option.some_bind]
  rw [read2_pad2 mi _ (by omega)]
  simp only [Option.some_bind]
  rw [expectCh_cons]
  simp only [Option.some_bind]
  rw [read2_pad2 sec _ (by omega)]
  simp only [Option.some_bind]
  by_cases hn0 : n = 0
  · subst hn0
    rw [show fracRender 0 = [] from rfl, List.nil_append]
    by_cases hoff : off = 0
    · subst hoff
      rw [show offsetRender 0 = ['Z'] from rfl]
      rw [show parseFracPart ['Z'] = (0, ['Z']) from rfl]
      simp only []
      rw [show parseOffset ['Z'] = some (0 : Int) from rfl]
      simp only [Option.some_bind]
      simp [hmo1, hmo2, hd1, hd2, hh, hmi, hs]
    · obtain ⟨c2, d2, l2, hsh, hdg, hdot, hpo⟩ := offsetRender_shape off hoff hob
      rw [hsh]
      rw [parseFracPart_head_ne _ _ _ hdot]
      simp only []
      rw [hpo]
      simp only [Option.some_bind]
      simp [hmo1, hmo2, hd1, hd2, hh, hmi, hs]
  · by_cases hoff : off = 0
    · subst hoff
      rw [show offsetRender 0 = ['Z'] from rfl]
      rw [show fracRender n = '.' :: trimTrailingZeros (pad9 n) from by
        simp [fracRender, hn0]]
      have hfr := parseFracPart_frac n 'Z' [] (by omega) hn (by decide)
      rw [hfr]
      simp only []
      rw [show parseOffset ['Z'] = some (0 : Int) from rfl]
      simp only [Option.some_bind]
      simp [hmo1, hmo2, hd1, hd2, hh, hmi, hs]
    · obtain ⟨c2, d2, l2, hsh, hdg, hdot, hpo⟩ := offsetRender_shape off hoff hob
      rw [hsh]
      rw [show fracRender n = '.' :: trimTrailingZeros (pad9 n) from by
        simp [fracRender, hn0]]
      have hfr := parseFracPart_frac n c2 (d2 :: l2) (by omega) hn hdg
      rw [hfr]
      simp only []
      rw [hpo]
      simp only [Option.some_bind]
      simp [hmo1, hmo2, hd1, hd2, hh, hmi, hs]

/-! ## Timestamps contain no escapable characters -/

theorem escapeString_all_plain (s : List Char) (h : ∀ c ∈ s, escapeChar c = [c]) :
    escapeString s = s := by
  induction s with
  | nil => rfl
  | cons c cs ih =>
    rw [escapeString_cons, h c (by simp), ih (fun d hd => h d (by simp [hd]))]
    rfl

theorem plain_append {l1 l2 : List Char} (h1 : ∀ c ∈ l1, escapeChar c = [c])
    (h2 : ∀ c ∈ l2, escapeChar c = [c]) : ∀ c ∈ l1 ++ l2, escapeChar c = [c] := by
  intro c hc
  rcases List.mem_append.mp hc with h | h
  exacts [h1 c h, h2 c h]

theorem plain_cons {a : Char} {l : List Char} (ha : escapeChar a = [a])
    (h : ∀ c ∈ l, escapeChar c = [c]) : ∀ c ∈ a :: l, escapeChar c = [c] := by
  intro c hc
  rcases List.mem_cons.mp hc with h' | h'
  · subst h'; exact ha
  · exact h c h'

theorem escapeChar_digit : ∀ d, d < 10 → escapeChar (digitChar d) = [digitChar d] := by
  decide

theorem plain_pad2 (n : Nat) : ∀ c ∈ pad2 n, escapeChar c = [c] := by
  intro c hc
  simp [pad2] at hc
  rcases hc with h | h <;>
    (subst h; exact escapeChar_digit _ (Nat.mod_lt _ (by norm_num)))

theorem plain_pad4 (n : Nat) : ∀ c ∈ pad4 n, escapeChar c = [c] := by
  intro c hc
  simp [pad4] at hc
  rcases hc with h | h | h | h <;>
    (subst h; exact escapeChar_digit _ (Nat.mod_lt _ (by norm_num)))

theorem plain_pad9 (n : Nat) : ∀ c ∈ pad9 n, escapeChar c = [c] := by
  intro c hc
  simp [pad9] at hc
  rcases hc with h | h | h | h | h | h | h | h | h <;>
    (subst h; exact escapeChar_digit _ (Nat.mod_lt _ (by norm_num)))

theorem plain_fracRender (n : Nat) : ∀ c ∈ fracRender n, escapeChar c = [c] := by
  unfold fracRender
  split
  · simp
  · refine plain_cons (by decide) ?_
    intro c hc
    obtain ⟨z, hz⟩ := trimTrailingZeros_spec (pad9 n)
    exact plain_pad9 n c (by rw [hz]; exact List.mem_append_left _ hc)

theorem plain_offsetRender (off : Int) : ∀ c ∈ offsetRender off, escapeChar c = [c] := by
  unfold offsetRender
  split
  · intro c hc
    simp at hc
    subst hc; decide
  · refine plain_cons (by split <;> decide) ?_
    exact plain_append (plain_pad2 _) (plain_cons (by decide) (plain_pad2 _))

theorem plain_format (t : GoTime) : ∀ c ∈ t.format, escapeChar c = [c] := by
  unfold GoTime.format
  exact plain_append (plain_append (plain_append (plain_append (plain_append
    (plain_append (plain_pad4 _) (plain_cons (by decide) (plain_pad2 _)))
    (plain_cons (by decide) (plain_pad2 _)))
    (plain_cons (by decide) (plain_pad2 _)))
    (plain_cons (by decide) (plain_pad2 _)))
    (plain_cons (by decide) (plain_pad2 _)))
    (plain_append (plain_fracRender _) (plain_offsetRender _))

theorem escape_format (t : GoTime) : escapeString t.format = t.format :=
  escapeString_all_plain _ (plain_format t)

/-! ## The typed decoder inverts the encoder -/

theorem decodeTimeInto_format (t : GoTime) (h : t.validb = true) (cur : GoTime) :
    decodeTimeInto (jsonOfTime t) cur = some t := by
  simp [decodeTimeInto, jsonOfTime, mkStr, escape_format, parseRFC3339_format t h]

theorem wfb_mkStr (s : List Char) : (mkStr s).wfb = true := by
  simp [mkStr, Json.wfb]

theorem decodeContentElem_jsonOf (c : Content) (h : c.validb = true) :
    decodeContentElem (jsonOfContent c) = some c := by
  simp only [Content.validb, Bool.and_eq_true] at h
  simp +decide [decodeContentElem, jsonOfContent, Content.applyMember,
    decodeStringInto, mkStr, decodeTimeInto_format c.createdAt h.1,
    decodeTimeInto_format c.updatedAt h.2]

theorem decodeContentsInto_jsonOf (o : Option (List Content))
    (h : (match o with | none => true | some cs => cs.all Content.validb) = true) :
    decodeContentsInto (jsonOfContents o) = some o := by
  match o with
  | none => rfl
  | some l =>
    simp only [decodeContentsInto, jsonOfContents]
    induction l with
    | nil => rfl
    | cons c cs ih =>
      simp only [List.all_cons, Bool.and_eq_true] at h
      simp only [List.map_cons, List.mapM_cons, decodeContentElem_jsonOf c h.1]
      have := ih h.2
      simp only [decodeContentsInto, jsonOfContents] at this
      rcases hm : (cs.map jsonOfContent).mapM decodeContentElem with _ | l'
      · rw [hm] at this; simp at this
      · rw [hm] at this
        simp at this
        simp [this]

theorem decodeNoteElem_jsonOf (n : Note) (h : n.validb = true) :
    decodeNoteElem (jsonOfNote n) = some n := by
  simp only [Note.validb, Bool.and_eq_true] at h
  simp +decide [decodeNoteElem, jsonOfNote, Note.applyMember,
    decodeStringInto, mkStr, decodeTimeInto_format n.createdAt h.1.1,
    decodeTimeInto_format n.updatedAt h.1.2,
    decodeContentsInto_jsonOf n.content h.2]

theorem decodeNotesJson_jsonOf (C : Notes) (h : C.validb = true) :
    decodeNotesJson (jsonOfNotes C) = some C := by
  match C with
  | none => rfl
  | some l =>
    simp only [Notes.validb] at h
    simp only [decodeNotesJson, jsonOfNotes]
    induction l with
    | nil => rfl
    | cons n ns ih =>
      simp only [List.all_cons, Bool.and_eq_true] at h
      simp only [List.map_cons, List.mapM_cons, decodeNoteElem_jsonOf n h.1]
      have := ih h.2
      simp only [decodeNotesJson, jsonOfNotes] at this
      rcases hm : (ns.map jsonOfNote).mapM decodeNoteElem with _ | l'
      · rw [hm] at this; simp at this
      · rw [hm] at this
        simp at this
        simp [this]

theorem wfb_jsonOfContent (c : Content) : (jsonOfContent c).wfb = true := by
  simp [jsonOfContent, Json.wfb, Json.wfbMembers, mkStr, jsonOfTime]

theorem wfb_jsonOfContents (o : Option (List Content)) :
    (jsonOfContents o).wfb = true := by
  match o with
  | none => rfl
  | some l =>
    simp only [jsonOfContents, Json.wfb]
    induction l with
    | nil => rfl
    | cons c cs ih =>
      simp [Json.wfbElems, wfb_jsonOfContent c, ih]

theorem wfb_jsonOfNote (n : Note) : (jsonOfNote n).wfb = true := by
  simp [jsonOfNote, Json.wfb, Json.wfbMembers, mkStr, jsonOfTime,
    wfb_jsonOfContents n.content]

theorem wfb_jsonOfNotes (C : Notes) : (jsonOfNotes C).wfb = true := by
  match C with
  | none => rfl
  | some l =>
    simp only [jsonOfNotes, Json.wfb]
    induction l with
    | nil => rfl
    | cons n ns ih =>
      simp [Json.wfbElems, wfb_jsonOfNote n, ih]

/-- `json.Unmarshal` inverts `json.Marshal` on every valid `[]Note`
value (the round-trip law). -/
theorem unmarshalNotes_marshalNotes (C : Notes) (h : C.validb = true) :
    unmarshalNotes (marshalNotes C) = some C := by
  unfold unmarshalNotes marshalNotes
  rw [parseJsonTop_render _ (wfb_jsonOfNotes C)]
  simp only [Option.some_bind]
  exact decodeNotesJson_jsonOf C h

/-! ## The write-serialization gate is safe -/

theorem take_append_getD (P : Bytes) (i : Nat) (h : i < P.length) :
    P.take i ++ [P.getD i ' '] = P.take (i + 1) := by
  rw [List.take_succ]
  simp [List.getElem?_eq_getElem h]

theorem mxInv_init (P1 P2 f0 : Bytes) : mxInv P1 P2 (initMx f0) := by
  simp only [mxInv, initMx]
  refine ⟨by simp, by simp, fun h => ?_⟩
  rcases h with h | h <;> omega

theorem mxInv_step (P1 P2 : Bytes) (i : Bool) (s : Mx2State)
    (h : mxInv P1 P2 s) : mxInv P1 P2 (threadStep (if i then P2 else P1) i s) := by
  cases i
  · -- thread A steps with payload P1
    simp only [Bool.false_eq_true, if_false, threadStep, Mx2State.pc, Mx2State.setPc]
    rcases hl : s.lock with _ | b
    · simp only [mxInv, hl] at h
      obtain ⟨hA, hB, hf⟩ := h
      rcases hA with h0 | hdone
      · rw [if_pos h0, if_pos (show (none : Option Bool) = none from rfl)]
        simp only [mxInv]
        exact ⟨by omega, by omega, hB, fun hc => absurd hc (by omega)⟩
      · rw [if_neg (show ¬ s.pcA = 0 by omega), if_neg (show ¬ s.pcA = 1 by omega),
          if_neg (show ¬ s.pcA < P1.length + 2 by omega),
          if_neg (show ¬ s.pcA = P1.length + 2 by omega)]
        simp only [mxInv, hl]
        exact ⟨Or.inr hdone, hB, hf⟩
    · cases b
      · -- A holds the lock and steps
        simp only [mxInv, hl] at h
        obtain ⟨h1, h2, hB, hf⟩ := h
        by_cases hk1 : s.pcA = 1
        · rw [if_neg (show ¬ s.pcA = 0 by omega), if_pos hk1]
          simp only [mxInv, hl]
          refine ⟨by omega, by omega, hB, fun _ => by simp⟩
        · by_cases hk2 : s.pcA < P1.length + 2
          · have h2k : 2 ≤ s.pcA := by omega
            rw [if_neg (show ¬ s.pcA = 0 by omega), if_neg hk1, if_pos hk2]
            simp only [mxInv, hl]
            refine ⟨by omega, by omega, hB, fun _ => ?_⟩
            rw [hf h2k, take_append_getD P1 (s.pcA - 2) (by omega)]
            congr 1
            omega
          · have hk : s.pcA = P1.length + 2 := by omega
            rw [if_neg (show ¬ s.pcA = 0 by omega), if_neg hk1, if_neg hk2, if_pos hk]
            simp only [mxInv]
            refine ⟨Or.inr (by omega), hB, fun _ => Or.inl ?_⟩
            rw [hf (by omega), hk]
            simp
      · -- B holds the lock; A can only be waiting or done
        simp only [mxInv, hl] at h
        obtain ⟨h1, h2, hA, hf⟩ := h
        rcases hA with h0 | hdone
        · rw [if_pos h0, if_neg (show ¬ (some true : Option Bool) = none by simp)]
          simp only [mxInv, hl]
          exact ⟨h1, h2, Or.inl h0, hf⟩
        · rw [if_neg (show ¬ s.pcA = 0 by omega), if_neg (show ¬ s.pcA = 1 by omega),
            if_neg (show ¬ s.pcA < P1.length + 2 by omega),
            if_neg (show ¬ s.pcA = P1.length + 2 by omega)]
          simp only [mxInv, hl]
          exact ⟨h1, h2, Or.inr hdone, hf⟩
  · -- thread B steps with payload P2
    simp only [if_true, threadStep, Mx2State.pc, Mx2State.setPc]
    rcases hl : s.lock with _ | b
    · simp only [mxInv, hl] at h
      obtain ⟨hA, hB, hf⟩ := h
      rcases hB with h0 | hdone
      · rw [if_pos h0, if_pos (show (none : Option Bool) = none from rfl)]
        simp only [mxInv]
        exact ⟨by omega, by omega, hA, fun hc => absurd hc (by omega)⟩
      · rw [if_neg (show ¬ s.pcB = 0 by omega), if_neg (show ¬ s.pcB = 1 by omega),
          if_neg (show ¬ s.pcB < P2.length + 2 by omega),
          if_neg (show ¬ s.pcB = P2.length + 2 by omega)]
        simp only [mxInv, hl]
        exact ⟨hA, Or.inr hdone, hf⟩
    · cases b
      · -- A holds the lock; B can only be waiting or done
        simp only [mxInv, hl] at h
        obtain ⟨h1, h2, hB, hf⟩ := h
        rcases hB with h0 | hdone
        · rw [if_pos h0, if_neg (show ¬ (some false : Option Bool) = none by simp)]
          simp only [mxInv, hl]
          exact ⟨h1, h2, Or.inl h0, hf⟩
        · rw [if_neg (show ¬ s.pcB = 0 by omega), if_neg (show ¬ s.pcB = 1 by omega),
            if_neg (show ¬ s.pcB < P2.length + 2 by omega),
            if_neg (show ¬ s.pcB = P2.length + 2 by omega)]
          simp only [mxInv, hl]
          exact ⟨h1, h2, Or.inr hdone, hf⟩
      · -- B holds the lock and steps
        simp only [mxInv, hl] at h
        obtain ⟨h1, h2, hA, hf⟩ := h
        by_cases hk1 : s.pcB = 1
        · rw [if_neg (show ¬ s.pcB = 0 by omega), if_pos hk1]
          simp only [mxInv, hl]
          refine ⟨by omega, by omega, hA, fun _ => by simp⟩
        · by_cases hk2 : s.pcB < P2.length + 2
          · have h2k : 2 ≤ s.pcB := by omega
            rw [if_neg (show ¬ s.pcB = 0 by omega), if_neg hk1, if_pos hk2]
            simp only [mxInv, hl]
            refine ⟨by omega, by omega, hA, fun _ => ?_⟩
            rw [hf h2k, take_append_getD P2 (s.pcB - 2) (by omega)]
            congr 1
            omega
          · have hk : s.pcB = P2.length + 2 := by omega
            rw [if_neg (show ¬ s.pcB = 0 by omega), if_neg hk1, if_neg hk2, if_pos hk]
            simp only [mxInv]
            refine ⟨hA, Or.inr (by omega), fun _ => Or.inr ?_⟩
            rw [hf (by omega), hk]
            simp

theorem mxInv_run (P1 P2 : Bytes) (sched : List Bool) (s : Mx2State)
    (h : mxInv P1 P2 s) : mxInv P1 P2 (runSched P1 P2 sched s) := by
  induction sched generalizing s with
  | nil => exact h
  | cons i r ih => exact ih _ (mxInv_step P1 P2 i s h)

/-! ## Claims about the handlers -/

/-- C2: for every payload `P` that does not parse as a Notes
collection, `POST /save` with body `P` responds with the success
status, the compact store afterwards contains `P` byte-for-byte, the
readable store is unchanged, and a subsequent `GET /load` returns `P`
verbatim. -/
theorem save_unparseable_payload_contract (env : SaveEnv) (fs : FS) (P : Bytes)
    (hb : env.bodyRead = some P) (hw : env.writeDataErr = none)
    (hp : unmarshalNotes P = none) :
    saveHandler "POST".data env fs =
      (⟨200, "application/json".data, successBody⟩,
        { compact := some P, readable := fs.readable }) ∧
    loadHandler "GET".data none { compact := some P, readable := fs.readable } =
      (⟨200, "application/json".data, P⟩,
        { compact := some P, readable := fs.readable }) := by
  constructor
  · simp [saveHandler, hb, hw, hp]
  · simp [loadHandler]

/-- Witness for C2 at the non-JSON payload `x`. -/
theorem save_unparseable_payload_contract_witness :
    saveHandler "POST".data ⟨some ['x'], none, none⟩ ⟨none, some ['r']⟩ =
      (⟨200, "application/json".data, successBody⟩,
        { compact := some ['x'], readable := some ['r'] }) :=
  (save_unparseable_payload_contract ⟨some ['x'], none, none⟩ ⟨none, some ['r']⟩ ['x']
    rfl rfl (by decide)).1

/-- C3: when the compact-store write fails, `saveHandler` responds 500
with the underlying error text embedded in the message, and neither
store is written. -/
theorem save_compact_write_failure_contract (env : SaveEnv) (fs : FS) (body e : Bytes)
    (hb : env.bodyRead = some body) (he : env.writeDataErr = some e) :
    saveHandler "POST".data env fs =
      (httpError ("Error saving to data.txt: ".data ++ e) 500, fs) := by
  simp [saveHandler, hb, he]

/-- Witness for C3. -/
theorem save_compact_write_failure_contract_witness :
    saveHandler "POST".data ⟨some ['x'], some ['d', 'i', 's', 'k'], none⟩
        ⟨some ['c'], some ['r']⟩ =
      (httpError ("Error saving to data.txt: ".data ++ ['d', 'i', 's', 'k']) 500,
        ⟨some ['c'], some ['r']⟩) ∧
    (httpError ("Error saving to data.txt: ".data ++ ['d', 'i', 's', 'k']) 500).status =
      500 :=
  ⟨save_compact_write_failure_contract ⟨some ['x'], some ['d', 'i', 's', 'k'], none⟩
    ⟨some ['c'], some ['r']⟩ ['x'] ['d', 'i', 's', 'k'] rfl rfl, rfl⟩

/-- C4: when the payload parses and the compact write succeeds, a
failing readable-store write is not propagated: the response is still
200 with the success payload, and only the compact store changed. -/
theorem save_readable_failure_not_propagated (env : SaveEnv) (fs : FS)
    (body : Bytes) (notes : Notes) (e : Bytes)
    (hb : env.bodyRead = some body) (hw : env.writeDataErr = none)
    (hn : unmarshalNotes body = some notes) (hr : env.writeReadableErr = some e) :
    saveHandler "POST".data env fs =
      (⟨200, "application/json".data, successBody⟩,
        { compact := some body, readable := fs.readable }) := by
  simp [saveHandler, hb, hw, hn, hr]

/-- Witness for C4 at payload `null`. -/
theorem save_readable_failure_not_propagated_witness :
    saveHandler "POST".data ⟨some "null".data, none, some ['e']⟩ ⟨none, some ['r']⟩ =
      (⟨200, "application/json".data, successBody⟩,
        { compact := some "null".data, readable := some ['r'] }) :=
  save_readable_failure_not_propagated ⟨some "null".data, none, some ['e']⟩
    ⟨none, some ['r']⟩ "null".data none ['e'] rfl rfl (by decide) rfl

/-- C5: a request to `/save` whose method is not POST, and a request
to `/load` whose method is not GET, are answered 405 and leave both
stores untouched. -/
theorem method_not_allowed_contract (m1 m2 : Bytes) (env : SaveEnv)
    (re : Option Bytes) (fs : FS) (h1 : m1 ≠ "POST".data) (h2 : m2 ≠ "GET".data) :
    saveHandler m1 env fs = (httpError "Only POST method is allowed".data 405, fs) ∧
    loadHandler m2 re fs = (httpError "Only GET method is allowed".data 405, fs) := by
  constructor
  · simp [saveHandler, h1]
  · simp [loadHandler, h2]

/-- Witness for C5: a GET to `/save` and a POST to `/load`. -/
theorem method_not_allowed_contract_witness :
    saveHandler "GET".data ⟨some ['x'], none, none⟩ ⟨some ['c'], some ['r']⟩ =
      (httpError "Only POST method is allowed".data 405, ⟨some ['c'], some ['r']⟩) ∧
    loadHandler "POST".data none ⟨some ['c'], some ['r']⟩ =
      (httpError "Only GET method is allowed".data 405, ⟨some ['c'], some ['r']⟩) :=
  method_not_allowed_contract "GET".data "POST".data ⟨some ['x'], none, none⟩ none
    ⟨some ['c'], some ['r']⟩ (by decide) (by decide)

/-- C6: `GET /load` responds 404 when the compact store does not
exist; when it exists and reading succeeds it responds 200 with
exactly the store's bytes and Content-Type `application/json`; a read
failure on an existing store responds 500. -/
theorem load_contract (fs : FS) (re : Option Bytes) :
    (fs.compact = none →
      loadHandler "GET".data re fs = (httpError "No saved data found".data 404, fs)) ∧
    (∀ d, fs.compact = some d → re = none →
      loadHandler "GET".data re fs = (⟨200, "application/json".data, d⟩, fs)) ∧
    (∀ d e, fs.compact = some d → re = some e →
      loadHandler "GET".data re fs =
        (httpError ("Error reading saved data: ".data ++ e) 500, fs)) := by
  refine ⟨fun h => ?_, fun d hd hre => ?_, fun d e hd hre => ?_⟩
  · simp [loadHandler, h]
  · simp [loadHandler, hd, hre]
  · simp [loadHandler, hd, hre]

/-- Witness for C6, covering all three branches. -/
theorem load_contract_witness :
    loadHandler "GET".data none ⟨none, none⟩ =
      (httpError "No saved data found".data 404, ⟨none, none⟩) ∧
    loadHandler "GET".data none ⟨some ['c'], none⟩ =
      (⟨200, "application/json".data, ['c']⟩, ⟨some ['c'], none⟩) ∧
    loadHandler "GET".data (some ['e']) ⟨some ['c'], none⟩ =
      (httpError ("Error reading saved data: ".data ++ ['e']) 500, ⟨some ['c'], none⟩) :=
  ⟨(load_contract ⟨none, none⟩ none).1 rfl,
   (load_contract ⟨some ['c'], none⟩ none).2.1 ['c'] rfl rfl,
   (load_contract ⟨some ['c'], none⟩ (some ['e'])).2.2 ['c'] ['e'] rfl rfl⟩

/-- C7: at process start, if the compact store is absent the bootstrap
writes the serialized empty collection (`[]`, compact and indented
alike) to both stores; if the compact store exists it writes to
neither file, regardless of the readable store. -/
theorem bootstrap_contract (fs : FS) :
    (fs.compact = none →
      createDefaultFilesIfNotExists true true fs =
        { compact := some "[]".data, readable := some "[]".data }) ∧
    (∀ w r, fs.compact ≠ none → createDefaultFilesIfNotExists w r fs = fs) := by
  constructor
  · intro h
    cases fs with
    | mk c rdb =>
      subst h
      simp [createDefaultFilesIfNotExists]
      constructor <;> decide
  · intro w r h
    cases fs with
    | mk c rdb =>
      match c, h with
      | some d, _ => simp [createDefaultFilesIfNotExists]

/-- Witness for C7: a fresh directory, and an existing store with the
readable file missing and junk contents. -/
theorem bootstrap_contract_witness :
    createDefaultFilesIfNotExists true true ⟨none, none⟩ =
      { compact := some "[]".data, readable := some "[]".data } ∧
    createDefaultFilesIfNotExists true true ⟨some ['j'], none⟩ = ⟨some ['j'], none⟩ :=
  ⟨(bootstrap_contract ⟨none, none⟩).1 rfl,
   (bootstrap_contract ⟨some ['j'], none⟩).2 true true (by simp)⟩

/-- C8: `/ping` with any method and any store state responds 200 with
the JSON object mapping "status" to "ok" and "message" to "Server is
running" (Go renders map keys sorted), and leaves the store
untouched. -/
theorem ping_contract (method : Bytes) (fs : FS) :
    (pingHandler method fs).2 = fs ∧
    (pingHandler method fs).1.status = 200 ∧
    (pingHandler method fs).1.contentType = "application/json".data ∧
    parseJsonTop (pingHandler method fs).1.body =
      some (Json.obj [("message".data, mkStr "Server is running".data),
        ("status".data, mkStr "ok".data)]) :=
  ⟨rfl, rfl, rfl, rfl⟩

/-- C1: saving the JSON serialization of a valid Notes collection `C`
over any prior store state and then loading returns a byte payload
that parses back to a collection deep-equal to `C`. -/
theorem roundtrip_save_then_load (C : Notes) (fs : FS) (hC : C.validb = true) :
    (saveHandler "POST".data ⟨some (marshalNotes C), none, none⟩ fs).1.status = 200 ∧
    (loadHandler "GET".data none
      (saveHandler "POST".data ⟨some (marshalNotes C), none, none⟩ fs).2).1.status =
      200 ∧
    unmarshalNotes (loadHandler "GET".data none
      (saveHandler "POST".data ⟨some (marshalNotes C), none, none⟩ fs).2).1.body =
      some C := by
  have hsave : saveHandler "POST".data ⟨some (marshalNotes C), none, none⟩ fs =
      (⟨200, "application/json".data, successBody⟩,
        ⟨some (marshalNotes C), some (marshalIndentNotes C)⟩) := by
    simp [saveHandler, unmarshalNotes_marshalNotes C hC]
  rw [hsave]
  exact ⟨rfl, by simp [loadHandler],
    by simp [loadHandler, unmarshalNotes_marshalNotes C hC]⟩

/-- Witness for C1 at the empty collection. -/
theorem roundtrip_save_then_load_witness :
    Notes.validb (some []) = true ∧
    unmarshalNotes (loadHandler "GET".data none
      (saveHandler "POST".data ⟨some (marshalNotes (some [])), none, none⟩
        ⟨none, none⟩).2).1.body = some (some []) :=
  ⟨by decide, (roundtrip_save_then_load (some []) ⟨none, none⟩ (by decide)).2.2⟩

/-- C9: the save mutex serializes concurrent saves: in every reachable
state of two concurrently issued saves, at most one thread is inside
its save critical section, and once both saves have completed the
compact store holds exactly one of the two payloads in full — never an
interleaving of bytes from both. -/
theorem concurrent_saves_contract (P1 P2 f0 : Bytes) (sched : List Bool) :
    (¬ (inCritical P1 (runSched P1 P2 sched (initMx f0)).pcA ∧
        inCritical P2 (runSched P1 P2 sched (initMx f0)).pcB)) ∧
    ((runSched P1 P2 sched (initMx f0)).pcA = progEnd P1 →
      (runSched P1 P2 sched (initMx f0)).pcB = progEnd P2 →
      (runSched P1 P2 sched (initMx f0)).file = P1 ∨
        (runSched P1 P2 sched (initMx f0)).file = P2) := by
  have hinv := mxInv_run P1 P2 sched _ (mxInv_init P1 P2 f0)
  set s := runSched P1 P2 sched (initMx f0) with hs
  rcases hl : s.lock with _ | b
  · simp only [mxInv, hl] at hinv
    obtain ⟨hA, hB, hf⟩ := hinv
    refine ⟨fun hc => ?_, fun h1 _ => hf (Or.inl ?_)⟩
    · simp only [inCritical] at hc
      obtain ⟨⟨hc1, hc2⟩, _⟩ := hc
      rcases hA with h | h <;> omega
    · simpa [progEnd] using h1
  · cases b
    · simp only [mxInv, hl] at hinv
      obtain ⟨h1, h2, hB, _⟩ := hinv
      refine ⟨fun hc => ?_, fun hd1 _ => ?_⟩
      · simp only [inCritical] at hc
        obtain ⟨_, hc3, hc4⟩ := hc
        rcases hB with h | h <;> omega
      · exact absurd hd1 (by simp only [progEnd]; omega)
    · simp only [mxInv, hl] at hinv
      obtain ⟨h1, h2, hA, _⟩ := hinv
      refine ⟨fun hc => ?_, fun _ hd2 => ?_⟩
      · simp only [inCritical] at hc
        obtain ⟨⟨hc1, hc2⟩, _⟩ := hc
        rcases hA with h | h <;> omega
      · exact absurd hd2 (by simp only [progEnd]; omega)

/-- Witness for C9: a schedule that runs the first saver to
completion, then the second; the store ends holding the second
payload. -/
theorem concurrent_saves_contract_witness :
    (runSched "ab".data "c".data
      [false, false, false, false, false, true, true, true, true]
      (initMx "z".data)).file = "ab".data ∨
    (runSched "ab".data "c".data
      [false, false, false, false, false, true, true, true, true]
      (initMx "z".data)).file = "c".data :=
  (concurrent_saves_contract "ab".data "c".data "z".data
    [false, false, false, false, false, true, true, true, true]).2
    (by decide) (by decide)

/-- C10: when a save payload unmarshals successfully, the readable
store is overwritten with the two-space-indented re-serialization of
the parsed value (not a reformatting of the payload bytes): unknown
JSON fields are dropped, timestamps are re-rendered, and the payload
`null` succeeds and sets the readable store to the literal `null`. -/
theorem save_readable_reserialization :
    (∀ (env : SaveEnv) (fs : FS) (body : Bytes) (notes : Notes),
      env.bodyRead = some body → env.writeDataErr = none →
      env.writeReadableErr = none → unmarshalNotes body = some notes →
      saveHandler "POST".data env fs =
        (⟨200, "application/json".data, successBody⟩,
          ⟨some body, some (marshalIndentNotes notes)⟩)) ∧
    unmarshalNotes "null".data = some none ∧
    marshalIndentNotes none = "null".data ∧
    unmarshalNotes
        "[\x7b\"id\":\"a\",\"junk\":true,\"createdAt\":\"2020-01-02T03:04:05.500Z\"\x7d]".data =
      some (some [⟨"a".data, [], none, ⟨2020, 1, 2, 3, 4, 5, 500000000, 0⟩,
        GoTime.zero⟩]) ∧
    marshalIndentNotes (some [⟨"a".data, [], none,
        ⟨2020, 1, 2, 3, 4, 5, 500000000, 0⟩, GoTime.zero⟩]) =
      "[\n  \x7b\n    \"id\": \"a\",\n    \"title\": \"\",\n    \"content\": null,\n    \"createdAt\": \"2020-01-02T03:04:05.5Z\",\n    \"updatedAt\": \"0001-01-01T00:00:00Z\"\n  \x7d\n]".data := by
  refine ⟨fun env fs body notes hb hw hr hn => ?_, by decide, by decide, by decide,
    by decide⟩
  simp [saveHandler, hb, hw, hr, hn]

/-- Witness for C10 at the payload `null`. -/
theorem save_readable_reserialization_witness :
    saveHandler "POST".data ⟨some "null".data, none, none⟩ ⟨none, none⟩ =
      (⟨200, "application/json".data, successBody⟩,
        ⟨some "null".data, some (marshalIndentNotes none)⟩) :=
  save_readable_reserialization.1 ⟨some "null".data, none, none⟩ ⟨none, none⟩
    "null".data none rfl rfl rfl (by decide)

end FastNotepad
